import Mathlib

/-!
Verification of the runtime placeholder injector of this repository
(the shell entrypoint that substitutes NEXT_PUBLIC_* placeholders in
built artifacts before handing control to the main process).

The script is embedded shallowly:

* File contents are lists of characters.  The substitution tool is
  invoked once per declared token as a single global substitution of the
  literal placeholder pattern; since the placeholder contains no newline,
  the tool's line-by-line processing coincides with whole-content
  processing, which is how it is modelled here.
* The replacement text is interpreted the way the substitution tool
  interprets the right-hand side of its s command: an ampersand expands
  to the matched text and a backslash escapes the following character
  (the tool's extended escapes for newline or case conversion are not
  modelled; no claim depends on them).  A value containing the chosen
  delimiter or a newline makes the generated command invalid, the tool
  fails, the file scanner propagates the failure and the script's
  errexit setting aborts the run; this is modelled by sedOk.
* The value of each declared variable is read with an external lookup
  whose failure status for an unset variable, combined with errexit,
  aborts the script at the assignment; a variable set to the empty
  string takes the warning branch.  The environment is modelled as an
  association list: absent key = unset variable.
* The in-place editing option of the substitution tool rewrites every
  file handed to it, matched or not; the model records every such file
  in a written trace.  Only files whose name matches one of the three
  allow-listed extensions are handed to the tool.
* A missing or unreadable root directory makes the file scanner fail,
  which with errexit aborts the run; this is the rootOk flag.
-/

/-- Convert a string literal to the character-list representation used
throughout the model. -/
def str (s : String) : List Char := s.data

/-- Boolean literal-prefix test on character lists. -/
def pfx : List Char → List Char → Bool
  | [], _ => true
  | _ :: _, [] => false
  | a :: p, b :: s => if a = b then pfx p s else false

/-- Boolean test: does p occur as a literal substring of s. -/
def occursB (p : List Char) : List Char → Bool
  | [] => p.isEmpty
  | c :: rest => pfx p (c :: rest) || occursB p rest

/-- Fuel-driven worker for global literal substitution: leftmost,
non-overlapping, the scan resuming after the inserted replacement, which
is exactly the behaviour of the substitution tool's global flag. -/
def replAux : Nat → List Char → List Char → List Char → List Char
  | 0, _, _, s => s
  | fuel + 1, p, v, s =>
    match s with
    | [] => []
    | c :: rest =>
      if !p.isEmpty && pfx p (c :: rest) then
        v ++ replAux fuel p v ((c :: rest).drop p.length)
      else
        c :: replAux fuel p v rest

/-- Global literal substitution of pattern p by replacement text v. -/
def replaceAll (p v s : List Char) : List Char := replAux s.length p v s

/-- Interpretation of the raw replacement text by the substitution tool:
an ampersand stands for the matched text m, a backslash escapes the
character after it, every other character stands for itself. -/
def sedInterp : List Char → List Char → List Char
  | [], _ => []
  | c :: rest, m =>
    if c = '&' then m ++ sedInterp rest m
    else if c = '\\' then
      match rest with
      | [] => []
      | d :: rest2 => d :: sedInterp rest2 m
    else c :: sedInterp rest m

/-- A value can be spliced into the generated substitution command only
if it contains neither the delimiter nor a newline; otherwise the tool
rejects the command and the run aborts. -/
def sedOk (v : List Char) : Bool := !(v.contains '|') && !(v.contains '\n')

/-- One invocation of the substitution tool on one file content: the
pattern is the literal placeholder (it contains no pattern
metacharacters), the replacement is the interpreted value. -/
def sedSubst (p v content : List Char) : List Char :=
  replaceAll p (sedInterp v p) content

/-- The placeholder string baked into artifacts for a token name. -/
def placeholder (n : List Char) : List Char := str "__" ++ n ++ str "__"

/-- Allow-list of rewritable extensions, matched as a name suffix just
as the file scanner's name patterns do. -/
def allowName (n : List Char) : Bool :=
  (str ".js").isSuffixOf n || (str ".css").isSuffixOf n ||
    (str ".html").isSuffixOf n

/-- An artifact: a path under the root and its content. -/
structure SFile where
  name : List Char
  content : List Char
deriving DecidableEq

/-- Is the artifact handed to the substitution tool by the scanner. -/
def allowListed (f : SFile) : Bool := allowName f.name

/-- The runtime environment: an association list from variable names to
values; an absent key models an unset variable. -/
abbrev Env := List (List Char × List Char)

/-- Observable state threaded through the run: the artifacts, the tokens
warned about, and the trace of files opened for writing. -/
structure RunState where
  files : List SFile
  warnings : List (List Char)
  written : List (List Char)
deriving DecidableEq

/-- Apply one token's substitution to one file, if it is allow-listed. -/
def subFile (p v : List Char) (f : SFile) : SFile :=
  if allowListed f then ⟨f.name, sedSubst p v f.content⟩ else f

/-- One replace_var call of the script.  An unset variable makes the
assignment from the failed lookup abort the run under errexit (error
before any warning); an empty value takes the warning branch; otherwise
the scanner runs over the root: it fails if the root is missing or the
generated command is invalid, else it hands every allow-listed file to
the in-place substitution tool, which rewrites each of them. -/
def replaceVar (rootOk : Bool) (env : Env) (n : List Char)
    (st : RunState) : Except RunState RunState :=
  match env.lookup n with
  | none => .error st
  | some v =>
    if v = [] then .ok ⟨st.files, st.warnings ++ [n], st.written⟩
    else if !rootOk then .error st
    else if !(sedOk v) then .error st
    else .ok ⟨st.files.map (subFile (placeholder n) v), st.warnings,
      st.written ++ (st.files.filter allowListed).map SFile.name⟩

/-- Process the declared tokens in order, stopping at the first fatal
failure as errexit does. -/
def runTokens (rootOk : Bool) (env : Env) :
    List (List Char) → RunState → Except RunState RunState
  | [], st => .ok st
  | n :: rest, st =>
    match replaceVar rootOk env n st with
    | .ok st2 => runTokens rootOk env rest st2
    | .error st2 => .error st2

/-- Outcome of the whole entrypoint: final state, the exit status of the
injection phase, and whether control was handed to the main command. -/
structure RunResult where
  state : RunState
  exitCode : Nat
  execed : Bool
deriving DecidableEq

/-- The four declared tokens, in the script's call order. -/
def tokenNames : List (List Char) :=
  [str "NEXT_PUBLIC_REDIRECT_URL", str "NEXT_PUBLIC_CW_LOGIN_URL",
   str "NEXT_PUBLIC_CW_APP_URL", str "NEXT_PUBLIC_CW_DOMAIN"]

/-- The whole entrypoint run: process all declared tokens, then hand off
to the main command; on a fatal failure exit non-zero without exec. -/
def runScript (rootOk : Bool) (env : Env) (files : List SFile) :
    RunResult :=
  match runTokens rootOk env tokenNames ⟨files, [], []⟩ with
  | .ok st => ⟨st, 0, true⟩
  | .error st => ⟨st, 1, false⟩

/-- Modelled from the spec's words, for refinement comparison: one
token's substitution as the spec states it, replacing every occurrence
of the placeholder by exactly the bound value, literally. -/
def specReplaceTok (env : Env) (c : List Char) (n : List Char) :
    List Char :=
  match env.lookup n with
  | some v => if v = [] then c else replaceAll (placeholder n) v c
  | none => c

/-- Modelled from the spec's words, for refinement comparison: the full
injection pass as the spec states it, every allow-listed artifact
rewritten by literal substitution of every bound token, in declaration
order. -/
def specPass (env : Env) (files : List SFile) : List SFile :=
  files.map fun f =>
    if allowListed f then
      ⟨f.name, tokenNames.foldl (specReplaceTok env) f.content⟩
    else f

/-- The substitutions actually applied by the script (placeholder and
raw value per processed bound token), cut off at the first fatal
failure. -/
def appliedSubs (rootOk : Bool) (env : Env) :
    List (List Char) → List (List Char × List Char)
  | [] => []
  | n :: rest =>
    match env.lookup n with
    | none => []
    | some v =>
      if v = [] then appliedSubs rootOk env rest
      else if !rootOk then []
      else if !(sedOk v) then []
      else (placeholder n, v) :: appliedSubs rootOk env rest

/-- Does the run get through the whole token list without a fatal
failure. -/
def runOk (rootOk : Bool) (env : Env) : List (List Char) → Bool
  | [] => true
  | n :: rest =>
    match env.lookup n with
    | none => false
    | some v =>
      if v = [] then runOk rootOk env rest
      else rootOk && sedOk v && runOk rootOk env rest

/-- The tokens warned about during the run, in order, cut off at the
first fatal failure. -/
def warned (rootOk : Bool) (env : Env) :
    List (List Char) → List (List Char)
  | [] => []
  | n :: rest =>
    match env.lookup n with
    | none => []
    | some v =>
      if v = [] then n :: warned rootOk env rest
      else if rootOk && sedOk v then warned rootOk env rest
      else []

/-- Fold a list of substitutions over one file content. -/
def applySubs (subs : List (List Char × List Char)) (c : List Char) :
    List Char :=
  subs.foldl (fun acc pv => sedSubst pv.1 pv.2 acc) c

/-- Apply a list of substitutions to one file, if allow-listed. -/
def fileApply (subs : List (List Char × List Char)) (f : SFile) :
    SFile :=
  if allowListed f then ⟨f.name, applySubs subs f.content⟩ else f

/-- The write trace produced by a run: one block of all allow-listed
file names per applied substitution. -/
def writtenOf (subs : List (List Char × List Char))
    (files : List SFile) : List (List Char) :=
  (subs.map fun _ => (files.filter allowListed).map SFile.name).flatten

/-- Right-associated five-part concatenation, the artifact shapes used
in the independence and sequentiality theorems. -/
def cat5 (a b c d e : List Char) : List Char := a ++ (b ++ (c ++ (d ++ e)))

/-- Right-associated three-part concatenation. -/
def cat3 (a b c : List Char) : List Char := a ++ (b ++ c)

/-- Environment that binds one declared token to a value and sets every
other declared token to the empty string. -/
def oneEnv (tA vA : List Char) : Env :=
  tokenNames.map fun t => (t, if t = tA then vA else [])

/-- Environment that binds two declared tokens and sets every other
declared token to the empty string. -/
def pairEnv (tA tB vA vB : List Char) : Env :=
  tokenNames.map fun t =>
    (t, if t = tA then vA else if t = tB then vB else [])

/-- Short names for the four declared tokens. -/
def tokRedirect : List Char := str "NEXT_PUBLIC_REDIRECT_URL"

/-- Second declared token. -/
def tokLogin : List Char := str "NEXT_PUBLIC_CW_LOGIN_URL"

/-- Third declared token. -/
def tokApp : List Char := str "NEXT_PUBLIC_CW_APP_URL"

/-- Fourth declared token. -/
def tokDomain : List Char := str "NEXT_PUBLIC_CW_DOMAIN"

/-- Environment with the first declared token unset (absent) and the
rest bound. -/
def envC1 : Env :=
  [(tokLogin, str "x"), (tokApp, str "x"), (tokDomain, str "x")]

/-- One artifact still carrying the first token's placeholder. -/
def filesC1 : List SFile :=
  [⟨str "a.js", str "__NEXT_PUBLIC_REDIRECT_URL__"⟩]

/-- Environment with every declared token unset. -/
def envC2 : Env := []

/-- One artifact for the all-unset run. -/
def filesC2 : List SFile :=
  [⟨str "b.js", str "__NEXT_PUBLIC_CW_DOMAIN__"⟩]

/-- Environment binding the last token to a value containing an
ampersand, all others set to the empty string. -/
def envC3 : Env :=
  [(tokRedirect, []), (tokLogin, []), (tokApp, []),
   (tokDomain, str "a&b")]

/-- One artifact carrying the last token's placeholder. -/
def filesC3 : List SFile :=
  [⟨str "t.js", str "x__NEXT_PUBLIC_CW_DOMAIN__y"⟩]

/-- Environment binding the first token to a value containing an
ampersand, all others set to the empty string. -/
def envC4 : Env :=
  [(tokRedirect, str "p&q"), (tokLogin, []), (tokApp, []),
   (tokDomain, [])]

/-- One artifact carrying the first token's placeholder. -/
def filesC4 : List SFile :=
  [⟨str "m.js", str "u__NEXT_PUBLIC_REDIRECT_URL__w"⟩]

/-- Environment with clean (metacharacter-free) values. -/
def envC4w : Env :=
  [(tokRedirect, str "https://r.example"), (tokLogin, []),
   (tokApp, str "u"), (tokDomain, str "d.example")]

/-- Artifacts: one allow-listed, one not. -/
def filesC4w : List SFile :=
  [⟨str "app.js", str "a __NEXT_PUBLIC_REDIRECT_URL__ b"⟩,
   ⟨str "skip.png", str "__NEXT_PUBLIC_REDIRECT_URL__"⟩]

/-- Environment with exactly one bound token. -/
def envC5 : Env :=
  [(tokRedirect, str "v"), (tokLogin, []), (tokApp, []), (tokDomain, [])]

/-- One allow-listed artifact containing no placeholder at all. -/
def filesC5 : List SFile := [⟨str "plain.js", str "hello"⟩]

/-- Environment with exactly one bound token, for the write-trace
witness. -/
def envC5w : Env :=
  [(tokRedirect, str "val"), (tokLogin, []), (tokApp, []),
   (tokDomain, [])]

/-- One allow-listed artifact without any placeholder occurrence. -/
def filesC5w : List SFile := [⟨str "keep.js", str "nothing here"⟩]

/-- Environment with every declared token set to the empty string. -/
def envC6 : Env :=
  [(tokRedirect, []), (tokLogin, []), (tokApp, []), (tokDomain, [])]

/-- One artifact untouched by the all-empty run. -/
def filesC6 : List SFile :=
  [⟨str "a.js", str "__NEXT_PUBLIC_CW_APP_URL__"⟩]

/-- One artifact for the missing-root witness. -/
def filesC6w : List SFile := [⟨str "c.css", str "body"⟩]

/-- Environment where the last token's value embeds the first token's
placeholder. -/
def envC7 : Env :=
  [(tokRedirect, str "x"), (tokLogin, []), (tokApp, []),
   (tokDomain, str "__NEXT_PUBLIC_REDIRECT_URL__")]

/-- One artifact carrying the last token's placeholder. -/
def filesC7 : List SFile :=
  [⟨str "a.js", str "__NEXT_PUBLIC_CW_DOMAIN__"⟩]

/-- Environment with one bound token and a placeholder-free value. -/
def envC7w : Env :=
  [(tokRedirect, str "vv"), (tokLogin, []), (tokApp, []),
   (tokDomain, [])]

/-- One artifact whose placeholder resolves completely in one run. -/
def filesC7w : List SFile :=
  [⟨str "a.js", str "__NEXT_PUBLIC_REDIRECT_URL__"⟩]

/-- Environment with one bound token, for the frame witness. -/
def envC8w : Env :=
  [(tokRedirect, str "r"), (tokLogin, []), (tokApp, []), (tokDomain, [])]

/-- Artifacts: one outside the allow-list carrying a placeholder, one
allow-listed. -/
def filesC8w : List SFile :=
  [⟨str "img.png", str "__NEXT_PUBLIC_REDIRECT_URL__"⟩,
   ⟨str "app.js", str "z"⟩]

/-- Environment binding the first and last declared tokens. -/
def envC9 : Env := pairEnv tokRedirect tokDomain (str "x") (str "y")

/-- Artifact text in which occurrences of the two placeholders overlap:
the two underscores closing the first placeholder also open the second
one. -/
def sC9 : List Char :=
  str "__NEXT_PUBLIC_REDIRECT_URL__NEXT_PUBLIC_CW_DOMAIN__"

/-- One artifact carrying the overlapping occurrences. -/
def filesC9 : List SFile := [⟨str "o.js", sC9⟩]

/-! Basic facts about the literal matcher and the substitution
function. -/

theorem pfx_self_append (p t : List Char) : pfx p (p ++ t) = true := by
  induction p with
  | nil => rfl
  | cons a p ih => simp [pfx, ih]

theorem pfx_nonnil_nil {p : List Char} (hp : p ≠ []) : pfx p [] = false := by
  cases p with
  | nil => exact absurd rfl hp
  | cons a p => rfl

theorem eq_append_of_pfx : ∀ {p s : List Char}, pfx p s = true →
    s = p ++ s.drop p.length := by
  intro p
  induction p with
  | nil => intro s _; simp
  | cons a p ih =>
    intro s h
    cases s with
    | nil => simp [pfx] at h
    | cons b s =>
      simp only [pfx] at h
      by_cases hab : a = b
      · subst hab
        rw [if_pos rfl] at h
        have := ih h
        simp only [List.length_cons, List.drop_succ_cons, List.cons_append]
        exact congrArg (a :: ·) this
      · rw [if_neg hab] at h
        exact absurd h (by simp)

theorem isEmpty_false_of_ne_nil {p : List Char} (hp : p ≠ []) :
    p.isEmpty = false := by
  cases p with
  | nil => exact absurd rfl hp
  | cons a p => rfl

theorem replAux_congr : ∀ (n m : Nat) (p v s : List Char),
    s.length ≤ n → s.length ≤ m → replAux n p v s = replAux m p v s := by
  intro n
  induction n with
  | zero =>
    intro m p v s hn _
    have hs : s = [] := List.eq_nil_of_length_eq_zero (Nat.le_zero.mp hn)
    subst hs
    cases m <;> rfl
  | succ n ih =>
    intro m p v s hn hm
    cases m with
    | zero =>
      have hs : s = [] := List.eq_nil_of_length_eq_zero (Nat.le_zero.mp hm)
      subst hs
      rfl
    | succ m =>
      cases s with
      | nil => rfl
      | cons c rest =>
        simp only [List.length_cons] at hn hm
        simp only [replAux]
        by_cases h : (!p.isEmpty && pfx p (c :: rest)) = true
        · rw [if_pos h, if_pos h]
          have hp : p ≠ [] := by
            intro hnil
            subst hnil
            simp at h
          have hlen : ((c :: rest).drop p.length).length ≤ n := by
            have h1 : 1 ≤ p.length := by
              cases p with
              | nil => exact absurd rfl hp
              | cons a p => simp
            simp only [List.length_drop, List.length_cons]
            omega
          have hlen2 : ((c :: rest).drop p.length).length ≤ m := by
            have h1 : 1 ≤ p.length := by
              cases p with
              | nil => exact absurd rfl hp
              | cons a p => simp
            simp only [List.length_drop, List.length_cons]
            omega
          rw [ih m p v _ hlen hlen2]
        · rw [if_neg h, if_neg h]
          have hr1 : rest.length ≤ n := by omega
          have hr2 : rest.length ≤ m := by omega
          rw [ih m p v rest hr1 hr2]

theorem replaceAll_nil (p v : List Char) : replaceAll p v [] = [] := rfl

theorem replaceAll_cons (p v : List Char) (c : Char) (rest : List Char) :
    replaceAll p v (c :: rest) =
      if !p.isEmpty && pfx p (c :: rest) then
        v ++ replaceAll p v ((c :: rest).drop p.length)
      else c :: replaceAll p v rest := by
  show replAux (c :: rest).length p v (c :: rest) = _
  simp only [List.length_cons, replAux]
  by_cases h : (!p.isEmpty && pfx p (c :: rest)) = true
  · rw [if_pos h, if_pos h]
    have hp : p ≠ [] := by
      intro hnil
      subst hnil
      simp at h
    have h1 : 1 ≤ p.length := by
      cases p with
      | nil => exact absurd rfl hp
      | cons a p => simp
    have hlen : ((c :: rest).drop p.length).length ≤ rest.length := by
      simp only [List.length_drop, List.length_cons]
      omega
    rw [replAux_congr rest.length ((c :: rest).drop p.length).length p v _
      hlen (Nat.le_refl _)]
    rfl
  · rw [if_neg h, if_neg h]
    rfl

theorem replaceAll_pos {p : List Char} (v : List Char) {s : List Char}
    (hp : p ≠ []) (hm : pfx p s = true) :
    replaceAll p v s = v ++ replaceAll p v (s.drop p.length) := by
  cases s with
  | nil => rw [pfx_nonnil_nil hp] at hm; exact absurd hm (by simp)
  | cons c rest =>
    rw [replaceAll_cons]
    rw [if_pos]
    rw [isEmpty_false_of_ne_nil hp, hm]
    rfl

theorem replaceAll_neg {p : List Char} (v : List Char) (c : Char)
    (rest : List Char) (hm : pfx p (c :: rest) = false) :
    replaceAll p v (c :: rest) = c :: replaceAll p v rest := by
  rw [replaceAll_cons]
  rw [if_neg]
  simp [hm]

theorem occursB_cons (p : List Char) (c : Char) (rest : List Char) :
    occursB p (c :: rest) = (pfx p (c :: rest) || occursB p rest) := rfl

theorem replaceAll_of_not_occurs {p : List Char} (v : List Char) :
    ∀ s, occursB p s = false → replaceAll p v s = s := by
  intro s
  induction s with
  | nil => intro _; rfl
  | cons c rest ih =>
    intro h
    rw [occursB_cons] at h
    simp only [Bool.or_eq_false_iff] at h
    rw [replaceAll_neg v c rest h.1, ih h.2]

theorem replaceAll_append_no_match {p : List Char} (v : List Char) :
    ∀ (x t : List Char),
      (∀ k, k < x.length → pfx p ((x ++ t).drop k) = false) →
      replaceAll p v (x ++ t) = x ++ replaceAll p v t := by
  intro x
  induction x with
  | nil => intro t _; simp
  | cons c x ih =>
    intro t h
    have h0 : pfx p (c :: (x ++ t)) = false := by
      have := h 0 (by simp)
      simpa using this
    have hrec : replaceAll p v (x ++ t) = x ++ replaceAll p v t := by
      apply ih t
      intro k hk
      have := h (k + 1) (by simpa using Nat.succ_lt_succ hk)
      simpa using this
    rw [List.cons_append, replaceAll_neg v _ _ h0, hrec]
    rfl

theorem replaceAll_at {p : List Char} (v : List Char) (hp : p ≠ [])
    (x w : List Char)
    (h1 : ∀ k, k < x.length → pfx p ((x ++ (p ++ w)).drop k) = false)
    (h2 : occursB p w = false) :
    replaceAll p v (x ++ (p ++ w)) = x ++ (v ++ w) := by
  rw [replaceAll_append_no_match v x (p ++ w) h1]
  rw [replaceAll_pos v hp (pfx_self_append p w)]
  rw [List.drop_left]
  rw [replaceAll_of_not_occurs v w h2]

theorem occursB_eq_false_iff {p : List Char} (hp : p ≠ []) :
    ∀ s, (occursB p s = false ↔ ∀ k, pfx p (s.drop k) = false) := by
  intro s
  induction s with
  | nil =>
    constructor
    · intro _ k
      simp only [List.drop_nil]
      exact pfx_nonnil_nil hp
    · intro _
      show p.isEmpty = false
      exact isEmpty_false_of_ne_nil hp
  | cons c rest ih =>
    rw [occursB_cons]
    simp only [Bool.or_eq_false_iff]
    constructor
    · rintro ⟨h1, h2⟩ k
      cases k with
      | zero => simpa using h1
      | succ k =>
        simp only [List.drop_succ_cons]
        exact (ih.mp h2) k
    · intro h
      refine ⟨by simpa using h 0, ih.mpr ?_⟩
      intro k
      have := h (k + 1)
      simpa using this

theorem pfx_of_ge_length {p : List Char} (hp : p ≠ []) {s : List Char}
    {k : Nat} (h : s.length ≤ k) : pfx p (s.drop k) = false := by
  rw [List.drop_eq_nil_of_le h]
  exact pfx_nonnil_nil hp

theorem sedInterp_cons (c : Char) (rest m : List Char) :
    sedInterp (c :: rest) m =
      if c = '&' then m ++ sedInterp rest m
      else if c = '\\' then
        (match rest with
         | [] => []
         | d :: rest2 => d :: sedInterp rest2 m)
      else c :: sedInterp rest m := by
  cases rest <;> rfl

theorem sedInterp_clean : ∀ (v m : List Char), '&' ∉ v → '\\' ∉ v →
    sedInterp v m = v := by
  intro v
  induction v with
  | nil => intro m _ _; rfl
  | cons c rest ih =>
    intro m h1 h2
    simp only [List.mem_cons, not_or] at h1 h2
    rw [sedInterp_cons]
    rw [if_neg (fun hc => h1.1 hc.symm), if_neg (fun hc => h2.1 hc.symm)]
    rw [ih m h1.2 h2.2]

/-! Structural characterisation of a run: the final artifacts are the
input artifacts mapped through the applied substitutions, the warning
and write traces are computed from the environment alone. -/

theorem allowListed_mk (n c : List Char) :
    allowListed ⟨n, c⟩ = allowName n := rfl

theorem allowListed_subFile (p v : List Char) (f : SFile) :
    allowListed (subFile p v f) = allowListed f := by
  unfold subFile
  split
  · rfl
  · rfl

theorem name_subFile (p v : List Char) (f : SFile) :
    (subFile p v f).name = f.name := by
  unfold subFile
  split
  · rfl
  · rfl

theorem fileApply_nil (f : SFile) : fileApply [] f = f := by
  unfold fileApply applySubs
  split
  · rfl
  · rfl

theorem map_fileApply_nil (files : List SFile) :
    files.map (fileApply []) = files := by
  induction files with
  | nil => rfl
  | cons f fs ih => simp [fileApply_nil, ih]

theorem fileApply_cons_subFile (p v : List Char)
    (subs : List (List Char × List Char)) (f : SFile) :
    fileApply subs (subFile p v f) = fileApply ((p, v) :: subs) f := by
  unfold subFile fileApply applySubs
  by_cases h : allowListed f = true
  · rw [if_pos h]
    rw [if_pos (by rw [allowListed_mk]; exact h)]
    rw [if_pos h]
    rfl
  · rw [if_neg h, if_neg h, if_neg h]

theorem map_fileApply_map_subFile (p v : List Char)
    (subs : List (List Char × List Char)) (files : List SFile) :
    (files.map (subFile p v)).map (fileApply subs) =
      files.map (fileApply ((p, v) :: subs)) := by
  rw [List.map_map]
  apply List.map_congr_left
  intro f _
  exact fileApply_cons_subFile p v subs f

theorem filterNames_map_subFile (p v : List Char) (files : List SFile) :
    ((files.map (subFile p v)).filter allowListed).map SFile.name =
      (files.filter allowListed).map SFile.name := by
  induction files with
  | nil => rfl
  | cons f fs ih =>
    simp only [List.map_cons, List.filter_cons, allowListed_subFile]
    by_cases h : allowListed f = true
    · simp only [h, if_pos, List.map_cons, name_subFile]
      rw [ih]
    · simp only [h]
      exact ih

theorem writtenOf_nil (files : List SFile) : writtenOf [] files = [] := rfl

theorem writtenOf_cons (pv : List Char × List Char)
    (subs : List (List Char × List Char)) (files : List SFile) :
    writtenOf (pv :: subs) files =
      (files.filter allowListed).map SFile.name ++ writtenOf subs files := by
  unfold writtenOf
  rw [List.map_cons, List.flatten_cons]

theorem writtenOf_map_subFile (p v : List Char)
    (subs : List (List Char × List Char)) (files : List SFile) :
    writtenOf subs (files.map (subFile p v)) = writtenOf subs files := by
  unfold writtenOf
  rw [filterNames_map_subFile]

theorem runTokens_char (rootOk : Bool) (env : Env) :
    ∀ (L : List (List Char)) (files : List SFile) (w wr : List (List Char)),
      runTokens rootOk env L ⟨files, w, wr⟩ =
        if runOk rootOk env L then
          Except.ok ⟨files.map (fileApply (appliedSubs rootOk env L)),
            w ++ warned rootOk env L,
            wr ++ writtenOf (appliedSubs rootOk env L) files⟩
        else
          Except.error ⟨files.map (fileApply (appliedSubs rootOk env L)),
            w ++ warned rootOk env L,
            wr ++ writtenOf (appliedSubs rootOk env L) files⟩ := by
  intro L
  induction L with
  | nil =>
    intro files w wr
    simp [runTokens, runOk, appliedSubs, warned, writtenOf,
      map_fileApply_nil]
  | cons n rest ih =>
    intro files w wr
    simp only [runTokens, replaceVar, runOk, appliedSubs, warned]
    cases hlk : env.lookup n with
    | none =>
      simp [map_fileApply_nil, writtenOf_nil]
    | some v =>
      by_cases hv : v = []
      · simp only [hv, if_pos, ite_true]
        rw [ih files (w ++ [n]) wr]
        simp [List.append_assoc]
      · simp only [hv, ite_false, if_neg]
        cases rootOk with
        | false =>
          simp [map_fileApply_nil, writtenOf_nil]
        | true =>
          by_cases hs : sedOk v = true
          · simp only [hs, Bool.not_true, Bool.false_eq_true, if_false,
              Bool.true_and, Bool.not_false, if_true]
            rw [ih (files.map (subFile (placeholder n) v)) w
              (wr ++ (files.filter allowListed).map SFile.name)]
            rw [map_fileApply_map_subFile, writtenOf_map_subFile,
              writtenOf_cons]
            simp [List.append_assoc]
          · simp only [Bool.not_eq_true] at hs
            simp [hs, map_fileApply_nil, writtenOf_nil]

theorem runScript_char (rootOk : Bool) (env : Env) (files : List SFile) :
    runScript rootOk env files =
      ⟨⟨files.map (fileApply (appliedSubs rootOk env tokenNames)),
        warned rootOk env tokenNames,
        writtenOf (appliedSubs rootOk env tokenNames) files⟩,
       if runOk rootOk env tokenNames then 0 else 1,
       runOk rootOk env tokenNames⟩ := by
  unfold runScript
  rw [runTokens_char rootOk env tokenNames files [] []]
  by_cases h : runOk rootOk env tokenNames = true
  · simp [h]
  · simp only [Bool.not_eq_true] at h
    simp [h]

/-! Environment and trace helpers. -/

theorem filter_congr_mem {α : Type} {p q : α → Bool} :
    ∀ L : List α, (∀ x ∈ L, p x = q x) → L.filter p = L.filter q := by
  intro L
  induction L with
  | nil => intro _; rfl
  | cons a L ih =>
    intro h
    simp only [List.filter_cons]
    rw [h a (by simp)]
    rw [ih (fun x hx => h x (by simp [hx]))]

theorem map_id_of_mem {α : Type} {f : α → α} :
    ∀ L : List α, (∀ x ∈ L, f x = x) → L.map f = L := by
  intro L
  induction L with
  | nil => intro _; rfl
  | cons a L ih =>
    intro h
    simp only [List.map_cons]
    rw [h a (by simp), ih (fun x hx => h x (by simp [hx]))]

/-- Boolean membership test used as a filter predicate. -/
def memB (t : List Char) : List (List Char) → Bool
  | [] => false
  | s :: rest => if t = s then true else memB t rest

theorem memB_cons (t s : List Char) (rest : List (List Char)) :
    memB t (s :: rest) = if t = s then true else memB t rest := rfl

theorem memB_of_mem {t : List Char} :
    ∀ {S : List (List Char)}, t ∈ S → memB t S = true := by
  intro S
  induction S with
  | nil => intro h; simp at h
  | cons s rest ih =>
    intro h
    rw [memB_cons]
    by_cases hts : t = s
    · rw [if_pos hts]
    · rw [if_neg hts]
      have h2 : t ∈ rest := by
        rcases List.mem_cons.mp h with h1 | h2
        · exact absurd h1 hts
        · exact h2
      exact ih h2

theorem mem_of_memB {t : List Char} :
    ∀ {S : List (List Char)}, memB t S = true → t ∈ S := by
  intro S
  induction S with
  | nil => intro h; exact absurd h (by simp [memB])
  | cons s rest ih =>
    intro h
    rw [memB_cons] at h
    by_cases hts : t = s
    · subst hts; simp
    · rw [if_neg hts] at h
      exact List.mem_cons_of_mem s (ih h)

theorem filter_sublist_self :
    ∀ (L S : List (List Char)), S.Sublist L → L.Nodup →
      L.filter (fun t => memB t S) = S := by
  intro L
  induction L with
  | nil =>
    intro S hs _
    rw [List.sublist_nil.mp hs]
    rfl
  | cons a L ih =>
    intro S hs hnd
    have ha : a ∉ L := (List.nodup_cons.mp hnd).1
    have hndL : L.Nodup := (List.nodup_cons.mp hnd).2
    cases hs with
    | cons _ h =>
      have haS : memB a S = false := by
        cases hmb : memB a S with
        | false => rfl
        | true => exact absurd (h.subset (mem_of_memB hmb)) ha
      rw [List.filter_cons, haS]
      simp only [Bool.false_eq_true, if_false]
      exact ih S h hndL
    | cons₂ _ h =>
      rename_i S1
      rw [List.filter_cons, memB_of_mem (List.mem_cons_self a S1)]
      simp only [if_true]
      have hcg : L.filter (fun t => memB t (a :: S1)) =
          L.filter (fun t => memB t S1) := by
        apply filter_congr_mem
        intro x hx
        have hxna : x ≠ a := fun he => ha (by rw [← he]; exact hx)
        rw [memB_cons, if_neg hxna]
      rw [hcg, ih S1 h hndL]

theorem lookup_mapSelf (g : List Char → List Char) :
    ∀ (L : List (List Char)) (t : List Char), t ∈ L →
      List.lookup t (L.map fun u => (u, g u)) = some (g t) := by
  intro L
  induction L with
  | nil => intro t ht; simp at ht
  | cons u L ih =>
    intro t ht
    simp only [List.map_cons, List.lookup]
    by_cases h : t = u
    · subst h
      simp
    · have hbe : (t == u) = false := by simp [h]
      rw [hbe]
      have h2 : t ∈ L := by
        rcases List.mem_cons.mp ht with h1 | h2
        · exact absurd h1 h
        · exact h2
      exact ih t h2

theorem appliedSubs_of_fun (e : Env) (g : List Char → List Char) :
    ∀ L : List (List Char), (∀ t ∈ L, e.lookup t = some (g t)) →
      (∀ t ∈ L, g t ≠ [] → sedOk (g t) = true) →
      appliedSubs true e L =
        (L.filter fun t => !(g t).isEmpty).map
          (fun t => (placeholder t, g t)) ∧
      runOk true e L = true := by
  intro L
  induction L with
  | nil => intro _ _; exact ⟨rfl, rfl⟩
  | cons n rest ih =>
    intro hlk hok
    have hn := hlk n (by simp)
    obtain ⟨ih1, ih2⟩ := ih (fun t ht => hlk t (by simp [ht]))
      (fun t ht => hok t (by simp [ht]))
    by_cases hg : g n = []
    · constructor
      · simp only [appliedSubs, hn, hg, ite_true, List.filter_cons,
          List.isEmpty_nil, Bool.not_true, Bool.false_eq_true, if_false]
        exact ih1
      · simp only [runOk, hn, hg, ite_true]
        exact ih2
    · have hs := hok n (by simp) hg
      constructor
      · simp only [appliedSubs, hn, hg, ite_false, Bool.not_true,
          Bool.false_eq_true, if_false, hs, Bool.not_false, if_true,
          List.filter_cons, isEmpty_false_of_ne_nil hg, List.map_cons]
        rw [ih1]
      · simp only [runOk, hn, hg, ite_false, hs, Bool.true_and, ih2,
          Bool.and_true]

theorem applySubs_of_no_occ :
    ∀ (subs : List (List Char × List Char)) (c : List Char),
      (∀ pv ∈ subs, occursB pv.1 c = false) → applySubs subs c = c := by
  intro subs
  induction subs with
  | nil => intro c _; rfl
  | cons pv rest ih =>
    intro c h
    show applySubs rest (sedSubst pv.1 pv.2 c) = c
    have h1 : occursB pv.1 c = false := h pv (by simp)
    have h2 : sedSubst pv.1 pv.2 c = c :=
      replaceAll_of_not_occurs _ c h1
    rw [h2]
    exact ih c (fun q hq => h q (by simp [hq]))

theorem mem_writtenOf :
    ∀ (subs : List (List Char × List Char)) (files : List SFile)
      (n : List Char), n ∈ writtenOf subs files →
      ∃ f, f ∈ files ∧ allowListed f = true ∧ f.name = n := by
  intro subs
  induction subs with
  | nil =>
    intro files n h
    rw [writtenOf_nil] at h
    simp at h
  | cons pv rest ih =>
    intro files n h
    rw [writtenOf_cons] at h
    rcases List.mem_append.mp h with h1 | h2
    · obtain ⟨f, hf, hname⟩ := List.mem_map.mp h1
      have hm := List.mem_filter.mp hf
      exact ⟨f, hm.1, hm.2, hname⟩
    · exact ih files n h2

theorem name_mem_writtenOf (subs : List (List Char × List Char))
    (files : List SFile) (f : SFile) (h1 : f ∈ files)
    (h2 : allowListed f = true) (h3 : subs ≠ []) :
    f.name ∈ writtenOf subs files := by
  cases subs with
  | nil => exact absurd rfl h3
  | cons pv rest =>
    rw [writtenOf_cons]
    apply List.mem_append.mpr
    left
    exact List.mem_map.mpr ⟨f, List.mem_filter.mpr ⟨h1, h2⟩, rfl⟩

theorem runOk_false_iff (env : Env) :
    ∀ L : List (List Char),
      (runOk false env L = true ↔ ∀ t ∈ L, env.lookup t = some []) := by
  intro L
  induction L with
  | nil => simp [runOk]
  | cons n rest ih =>
    simp only [runOk]
    cases hlk : env.lookup n with
    | none =>
      constructor
      · intro h
        exact absurd h (by simp)
      · intro h
        have := h n (by simp)
        rw [hlk] at this
        exact absurd this (by simp)
    | some v =>
      by_cases hv : v = []
      · subst hv
        simp only [ite_true]
        constructor
        · intro h t ht
          rcases List.mem_cons.mp ht with h1 | h2
          · subst h1; exact hlk
          · exact (ih.mp h) t h2
        · intro h
          exact ih.mpr (fun t ht => h t (by simp [ht]))
      · simp only [hv, ite_false, Bool.false_and]
        constructor
        · intro h
          exact absurd h (by simp)
        · intro h
          have := h n (by simp)
          rw [hlk] at this
          exact absurd (Option.some.inj this) hv

theorem tokenNames_nodup : tokenNames.Nodup := by decide

theorem appliedSubs_pairEnv (tA tB vA vB : List Char)
    (hs : [tA, tB].Sublist tokenNames) (hA : vA ≠ []) (hB : vB ≠ [])
    (hsA : sedOk vA = true) (hsB : sedOk vB = true) :
    appliedSubs true (pairEnv tA tB vA vB) tokenNames =
      [(placeholder tA, vA), (placeholder tB, vB)] ∧
    runOk true (pairEnv tA tB vA vB) tokenNames = true := by
  have hnd : tokenNames.Nodup := tokenNames_nodup
  have hAB : tA ≠ tB := by
    have hndS := List.Nodup.sublist hs hnd
    simp only [List.nodup_cons, List.mem_singleton] at hndS
    exact hndS.1
  set g : List Char → List Char :=
    fun t => if t = tA then vA else if t = tB then vB else [] with hg
  have h1 : ∀ t ∈ tokenNames, (pairEnv tA tB vA vB).lookup t = some (g t) :=
    fun t ht => lookup_mapSelf g tokenNames t ht
  have h2 : ∀ t ∈ tokenNames, g t ≠ [] → sedOk (g t) = true := by
    intro t _ hne
    by_cases h3 : t = tA
    · simpa [hg, h3] using hsA
    · by_cases h4 : t = tB
      · simpa [hg, h3, h4, Ne.symm hAB] using hsB
      · simp [hg, h3, h4] at hne
  obtain ⟨ha, hr⟩ :=
    appliedSubs_of_fun (pairEnv tA tB vA vB) g tokenNames h1 h2
  refine ⟨?_, hr⟩
  rw [ha]
  have hfc : tokenNames.filter (fun t => !(g t).isEmpty) =
      tokenNames.filter (fun t => memB t [tA, tB]) := by
    apply filter_congr_mem
    intro x _
    by_cases h3 : x = tA
    · simp [hg, h3, memB, isEmpty_false_of_ne_nil hA]
    · by_cases h4 : x = tB
      · simp [hg, h3, h4, memB, Ne.symm hAB, isEmpty_false_of_ne_nil hB]
      · simp [hg, h3, h4, memB]
  rw [hfc, filter_sublist_self tokenNames [tA, tB] hs hnd]
  simp [hg, Ne.symm hAB]

theorem appliedSubs_oneEnv (tA vA : List Char) (ht : tA ∈ tokenNames)
    (hA : vA ≠ []) (hsA : sedOk vA = true) :
    appliedSubs true (oneEnv tA vA) tokenNames =
      [(placeholder tA, vA)] ∧
    runOk true (oneEnv tA vA) tokenNames = true := by
  have hnd : tokenNames.Nodup := tokenNames_nodup
  set g : List Char → List Char :=
    fun t => if t = tA then vA else [] with hg
  have h1 : ∀ t ∈ tokenNames, (oneEnv tA vA).lookup t = some (g t) :=
    fun t ht2 => lookup_mapSelf g tokenNames t ht2
  have h2 : ∀ t ∈ tokenNames, g t ≠ [] → sedOk (g t) = true := by
    intro t _ hne
    by_cases h3 : t = tA
    · simpa [hg, h3] using hsA
    · simp [hg, h3] at hne
  obtain ⟨ha, hr⟩ := appliedSubs_of_fun (oneEnv tA vA) g tokenNames h1 h2
  refine ⟨?_, hr⟩
  rw [ha]
  have hfc : tokenNames.filter (fun t => !(g t).isEmpty) =
      tokenNames.filter (fun t => memB t [tA]) := by
    apply filter_congr_mem
    intro x _
    by_cases h3 : x = tA
    · simp [hg, h3, memB, isEmpty_false_of_ne_nil hA]
    · simp [hg, h3, memB]
  rw [hfc, filter_sublist_self tokenNames [tA]
    (List.singleton_sublist.mpr ht) hnd]
  simp [hg]

theorem placeholder_ne_nil (n : List Char) : placeholder n ≠ [] := by
  simp [placeholder, str]

theorem one_le_length_of_ne_nil {p : List Char} (hp : p ≠ []) :
    1 ≤ p.length := by
  cases p with
  | nil => exact absurd rfl hp
  | cons a p => simp

theorem replaceAll_single_site (p v' : List Char) (hp : p ≠ [])
    (x w : List Char)
    (h : ∀ k, k < (x ++ (p ++ w)).length → k ≠ x.length →
      pfx p ((x ++ (p ++ w)).drop k) = false) :
    replaceAll p v' (x ++ (p ++ w)) = x ++ (v' ++ w) := by
  have hp1 : 1 ≤ p.length := one_le_length_of_ne_nil hp
  have hlen : (x ++ (p ++ w)).length = x.length + p.length + w.length := by
    simp [List.length_append]
    omega
  apply replaceAll_at v' hp x w
  · intro k hk
    exact h k (by omega) (by omega)
  · apply (occursB_eq_false_iff hp w).mpr
    intro k
    by_cases hkw : k < w.length
    · have hwk : w.drop k = (x ++ (p ++ w)).drop (x.length + p.length + k) := by
        have e1 : (x ++ (p ++ w)).drop x.length = p ++ w :=
          List.drop_left x (p ++ w)
        have e2 : (p ++ w).drop p.length = w := List.drop_left p w
        calc w.drop k = (((x ++ (p ++ w)).drop x.length).drop p.length).drop k := by
              rw [e1, e2]
          _ = (x ++ (p ++ w)).drop (x.length + p.length + k) := by
              rw [List.drop_drop, List.drop_drop]
              congr 1
              omega
      rw [hwk]
      exact h (x.length + p.length + k) (by omega) (by omega)
    · exact pfx_of_ge_length hp (by omega)

theorem mem_of_lookup :
    ∀ (e : Env) (t v : List Char), e.lookup t = some v → (t, v) ∈ e := by
  intro e
  induction e with
  | nil => intro t v h; simp [List.lookup] at h
  | cons kv rest ih =>
    intro t v h
    obtain ⟨k, w⟩ := kv
    simp only [List.lookup] at h
    by_cases hb : t = k
    · subst hb
      simp only [beq_self_eq_true] at h
      have := Option.some.inj h
      subst this
      exact List.mem_cons_self _ _
    · have hbe : (t == k) = false := by simp [hb]
      rw [hbe] at h
      exact List.mem_cons_of_mem _ (ih t v h)

theorem clean_of_entries (e : Env)
    (h : ∀ pv ∈ e, '&' ∉ pv.2 ∧ '\\' ∉ pv.2) :
    ∀ t v, e.lookup t = some v → '&' ∉ v ∧ '\\' ∉ v := by
  intro t v hlk
  exact h (t, v) (mem_of_lookup e t v hlk)

theorem applySubs_eq_specFold (rootOk : Bool) (env : Env) :
    ∀ (L : List (List Char)) (c : List Char),
      runOk rootOk env L = true →
      (∀ t v, env.lookup t = some v → '&' ∉ v ∧ '\\' ∉ v) →
      applySubs (appliedSubs rootOk env L) c =
        L.foldl (specReplaceTok env) c := by
  intro L
  induction L with
  | nil => intro c _ _; rfl
  | cons n rest ih =>
    intro c hok hclean
    simp only [runOk] at hok
    cases hlk : env.lookup n with
    | none =>
      rw [hlk] at hok
      exact absurd hok (by simp)
    | some v =>
      rw [hlk] at hok
      by_cases hv : v = []
      · subst hv
        simp only [ite_true] at hok
        simp only [appliedSubs, hlk, ite_true, List.foldl_cons]
        have hspec : specReplaceTok env c n = c := by
          simp [specReplaceTok, hlk]
        rw [hspec]
        exact ih c hok hclean
      · simp only [hv, ite_false, Bool.and_eq_true] at hok
        obtain ⟨⟨hro, hsv⟩, hrest⟩ := hok
        subst hro
        simp only [appliedSubs, hlk, hv, ite_false, Bool.not_true,
          Bool.false_eq_true, if_false, hsv, Bool.not_false, if_true,
          List.foldl_cons]
        show applySubs (appliedSubs true env rest)
          (sedSubst (placeholder n) v c) = _
        have hcl := hclean n v hlk
        have hsed : sedSubst (placeholder n) v c =
            replaceAll (placeholder n) v c := by
          unfold sedSubst
          rw [sedInterp_clean v (placeholder n) hcl.1 hcl.2]
        have hspec : specReplaceTok env c n =
            replaceAll (placeholder n) v c := by
          simp [specReplaceTok, hlk, hv]
        rw [hsed, hspec]
        exact ih _ hrest hclean

/-! The claims. -/

/-- C1: the claim states that a token whose binding is absent or empty
gets a warning naming it, its placeholder is left unchanged, and the
pass continues.  The code violates this for an absent binding: the
failed environment lookup in the assignment, under errexit, aborts the
run at once.  Here the first declared token is unset (the other three
are bound): the run stops with exit status 1, emits no warning at all,
performs no substitution, and never hands off to the main command —
instead of warning and continuing as the claim (and the script's own
warning message) intend. -/
theorem C1_run_aborts_on_absent :
    runScript true envC1 filesC1 = ⟨⟨filesC1, [], []⟩, 1, false⟩ := by
  decide

/-- C2: the claim states that for any subset of tokens bound (including
none) the injector always reaches the hand-off and completes with
outcome 0.  With every declared token unset, the very first lookup
fails, errexit aborts with status 1, and the main command is never
invoked. -/
theorem C2_no_handoff_when_all_unset :
    runScript true envC2 filesC2 = ⟨⟨filesC2, [], []⟩, 1, false⟩ := by
  decide

/-- C3: the claim states that replacement is literal and replacement
metacharacters in the value are not interpreted.  Binding the last token
to the value a&b on an artifact containing its placeholder, the run
produces xa__NEXT_PUBLIC_CW_DOMAIN__by — the ampersand was expanded to
the matched placeholder — while literal substitution of exactly the
bound value (second conjunct) gives xa&by, a different string. -/
theorem C3_ampersand_not_literal :
    (runScript true envC3 filesC3).state.files =
      [⟨str "t.js", str "xa__NEXT_PUBLIC_CW_DOMAIN__by"⟩] ∧
    replaceAll (placeholder tokDomain) (str "a&b")
        (str "x__NEXT_PUBLIC_CW_DOMAIN__y") = str "xa&by" ∧
    (str "xa__NEXT_PUBLIC_CW_DOMAIN__by" : List Char) ≠ str "xa&by" := by
  decide

/-- C4 (counterexample): with the first token bound to p&q, the run's
output differs from the spec-modelled literal pass (which replaces the
occurrence by exactly the bound value): the occurrence is replaced by
the interpreted text instead. -/
theorem C4_counterexample :
    (runScript true envC4 filesC4).state.files =
      [⟨str "m.js", str "up__NEXT_PUBLIC_REDIRECT_URL__qw"⟩] ∧
    specPass envC4 filesC4 = [⟨str "m.js", str "up&qw"⟩] ∧
    (runScript true envC4 filesC4).state.files ≠ specPass envC4 filesC4 := by
  decide

/-- C4 (amended): for every declared token whose non-empty bound value
contains no character interpreted by the substitution tool (no ampersand
and no backslash; completing the run also requires no delimiter or
newline), after a completed run every allow-listed artifact equals the
spec-modelled literal pass: every occurrence of each bound token's
placeholder replaced, in declaration order, by exactly the bound value;
non-allow-listed artifacts are untouched. -/
theorem C4_amended (rootOk : Bool) (env : Env) (files : List SFile)
    (hok : runOk rootOk env tokenNames = true)
    (hclean : ∀ t v, env.lookup t = some v → '&' ∉ v ∧ '\\' ∉ v) :
    (runScript rootOk env files).execed = true ∧
    (runScript rootOk env files).state.files = specPass env files := by
  rw [runScript_char]
  refine ⟨hok, ?_⟩
  show files.map (fileApply (appliedSubs rootOk env tokenNames)) =
    specPass env files
  unfold specPass
  apply List.map_congr_left
  intro f _
  unfold fileApply
  by_cases h : allowListed f = true
  · rw [if_pos h, if_pos h]
    rw [applySubs_eq_specFold rootOk env tokenNames f.content hok hclean]
  · rw [if_neg h, if_neg h]

/-- C4 (witness): a concrete completed run with clean values coincides
with the literal pass. -/
theorem C4_amended_witness :
    (runScript true envC4w filesC4w).execed = true ∧
    (runScript true envC4w filesC4w).state.files =
      specPass envC4w filesC4w :=
  C4_amended true envC4w filesC4w (by decide)
    (clean_of_entries envC4w (by decide))

/-- C5 (counterexample): the claim states a file is rewritten only if a
replacement occurred in it.  Here the only artifact contains no
placeholder occurrence at all, one token is bound, and the in-place
substitution tool still rewrites the file: content unchanged, but the
file appears in the write trace. -/
theorem C5_counterexample :
    occursB (placeholder tokRedirect) (str "hello") = false ∧
    (runScript true envC5 filesC5).state.written = [str "plain.js"] ∧
    (runScript true envC5 filesC5).state.files = filesC5 := by
  decide

/-- C5 (amended): whenever at least one token with a non-empty valid
binding is processed, every allow-listed file is rewritten in place —
matched or not — so a file without any occurrence is still written (its
timestamp changes) while its content is unchanged. -/
theorem C5_amended (rootOk : Bool) (env : Env) (files : List SFile)
    (f : SFile) (h1 : f ∈ files) (h2 : allowListed f = true)
    (h3 : appliedSubs rootOk env tokenNames ≠ [])
    (h4 : ∀ pv ∈ appliedSubs rootOk env tokenNames,
      occursB pv.1 f.content = false) :
    f.name ∈ (runScript rootOk env files).state.written ∧
    f ∈ (runScript rootOk env files).state.files := by
  rw [runScript_char]
  refine ⟨name_mem_writtenOf _ files f h1 h2 h3, ?_⟩
  show f ∈ files.map (fileApply (appliedSubs rootOk env tokenNames))
  refine List.mem_map.mpr ⟨f, h1, ?_⟩
  unfold fileApply
  rw [if_pos h2, applySubs_of_no_occ _ f.content h4]

/-- C5 (witness): a concrete occurrence-free allow-listed file is
written with its content unchanged. -/
theorem C5_amended_witness :
    (str "keep.js") ∈ (runScript true envC5w filesC5w).state.written ∧
    (⟨str "keep.js", str "nothing here"⟩ : SFile) ∈
      (runScript true envC5w filesC5w).state.files :=
  C5_amended true envC5w filesC5w ⟨str "keep.js", str "nothing here"⟩
    (by decide) (by decide) (by decide) (by decide)

/-- C6 (counterexample): the claim states a missing root aborts the run
with a non-zero outcome before any token and the main command never
starts.  With the root missing but every declared token set to the
empty string, the scanner is never invoked: the run completes with
outcome 0 and hands off to the main command. -/
theorem C6_counterexample :
    (runScript false envC6 filesC6).execed = true ∧
    (runScript false envC6 filesC6).exitCode = 0 ∧
    (runScript false envC6 filesC6).state.files = filesC6 := by
  decide

/-- C6 (amended): with the root missing, the run reaches the hand-off
(outcome 0) exactly when every declared token is set to the empty
string; as soon as any token is unset or bound to a non-empty value,
the run aborts with a non-zero outcome and the main command does not
start. -/
theorem C6_amended (env : Env) (files : List SFile) :
    ((runScript false env files).execed = true ↔
      ∀ t ∈ tokenNames, env.lookup t = some []) ∧
    ((runScript false env files).exitCode = 0 ↔
      ∀ t ∈ tokenNames, env.lookup t = some []) := by
  rw [runScript_char]
  constructor
  · exact runOk_false_iff env tokenNames
  · cases hx : runOk false env tokenNames with
    | true =>
      constructor
      · intro _
        exact (runOk_false_iff env tokenNames).mp hx
      · intro _
        simp [hx]
    | false =>
      constructor
      · intro h10
        simp at h10
      · intro hall
        have := (runOk_false_iff env tokenNames).mpr hall
        rw [hx] at this
        exact absurd this (by simp)

/-- C6 (witness): the abort half at a concrete environment with an
unset token and the completion half at the all-empty environment. -/
theorem C6_amended_witness :
    (runScript false envC6 filesC6w).execed = true :=
  (C6_amended envC6 filesC6w).1.mpr (by decide)

/-- C7 (counterexample): the claim states a second run with the same
bindings is a no-op.  Here the last token's value embeds the first
token's placeholder: the first run turns the artifact into that
placeholder, and the second run substitutes it again, changing the
artifact. -/
theorem C7_counterexample :
    (runScript true envC7 filesC7).state.files =
      [⟨str "a.js", str "__NEXT_PUBLIC_REDIRECT_URL__"⟩] ∧
    (runScript true envC7
        ((runScript true envC7 filesC7).state.files)).state.files =
      [⟨str "a.js", str "x"⟩] := by
  decide

/-- C7 (amended): a second run with the same bindings leaves every
artifact's content identical provided no processed token's placeholder
occurs in the artifacts produced by the first run — which is the case
whenever no bound value contains or recreates a declared placeholder,
but fails when a value embeds another token's placeholder. -/
theorem C7_amended (rootOk : Bool) (env : Env) (files : List SFile)
    (h : ∀ pv ∈ appliedSubs rootOk env tokenNames,
      ∀ f ∈ (runScript rootOk env files).state.files,
        occursB pv.1 f.content = false) :
    (runScript rootOk env
        ((runScript rootOk env files).state.files)).state.files =
      (runScript rootOk env files).state.files := by
  rw [runScript_char rootOk env ((runScript rootOk env files).state.files)]
  show ((runScript rootOk env files).state.files).map
    (fileApply (appliedSubs rootOk env tokenNames)) = _
  apply map_id_of_mem
  intro f hf
  unfold fileApply
  by_cases hall : allowListed f = true
  · rw [if_pos hall,
      applySubs_of_no_occ _ f.content (fun pv hpv => h pv hpv f hf)]
  · rw [if_neg hall]

/-- C7 (witness): a concrete run whose output contains no placeholder
is idempotent. -/
theorem C7_amended_witness :
    (runScript true envC7w
        ((runScript true envC7w filesC7w).state.files)).state.files =
      (runScript true envC7w filesC7w).state.files :=
  C7_amended true envC7w filesC7w (by decide)

/-- C8: a file whose name does not carry one of the three allow-listed
extensions is never handed to the substitution tool: it is absent from
the write trace (content and timestamp untouched) and survives the run
unchanged, in every environment, given that no other file of the run
shares its path. -/
theorem C8_frame (rootOk : Bool) (env : Env) (files : List SFile)
    (f : SFile) (h1 : f ∈ files) (h2 : allowListed f = false)
    (h3 : ∀ g ∈ files, g.name = f.name → g = f) :
    f ∈ (runScript rootOk env files).state.files ∧
    f.name ∉ (runScript rootOk env files).state.written := by
  rw [runScript_char]
  constructor
  · show f ∈ files.map (fileApply (appliedSubs rootOk env tokenNames))
    refine List.mem_map.mpr ⟨f, h1, ?_⟩
    unfold fileApply
    rw [if_neg (by simp [h2])]
  · intro hmem
    obtain ⟨g, hgin, hgallow, hgname⟩ :=
      mem_writtenOf _ files f.name hmem
    have hgf := h3 g hgin hgname
    rw [hgf, h2] at hgallow
    exact absurd hgallow (by simp)

/-- C8 (witness): a concrete non-allow-listed file still carrying a
placeholder is neither written nor modified while an allow-listed file
is processed in the same run. -/
theorem C8_frame_witness :
    (⟨str "img.png", str "__NEXT_PUBLIC_REDIRECT_URL__"⟩ : SFile) ∈
      (runScript true envC8w filesC8w).state.files ∧
    (str "img.png") ∉ (runScript true envC8w filesC8w).state.written :=
  C8_frame true envC8w filesC8w
    ⟨str "img.png", str "__NEXT_PUBLIC_REDIRECT_URL__"⟩
    (by decide) (by decide) (by decide)

theorem applySubs_single (p1 v1 c : List Char) :
    applySubs [(p1, v1)] c = sedSubst p1 v1 c := rfl

theorem applySubs_pair (p1 v1 p2 v2 c : List Char) :
    applySubs [(p1, v1), (p2, v2)] c =
      sedSubst p2 v2 (sedSubst p1 v1 c) := rfl

theorem sedSubst_clean (p v c : List Char) (h1 : '&' ∉ v)
    (h2 : '\\' ∉ v) : sedSubst p v c = replaceAll p v c := by
  unfold sedSubst
  rw [sedInterp_clean v p h1 h2]

theorem run_single_file (env : Env) (nm s : List Char)
    (hnm : allowName nm = true) :
    (runScript true env [⟨nm, s⟩]).state.files =
      [⟨nm, applySubs (appliedSubs true env tokenNames) s⟩] := by
  rw [runScript_char]
  show [(⟨nm, s⟩ : SFile)].map (fileApply _) = _
  simp only [List.map_cons, List.map_nil]
  congr 1
  unfold fileApply
  rw [if_pos (by rw [allowListed_mk]; exact hnm)]

/-- C9 (counterexample): the claim states that two declared tokens whose
placeholder strings share no substring overlap never corrupt each
other's occurrences and each is resolved as if the other did not exist.
Neither of the two placeholders here is a substring of the other (third
and fourth conjuncts), both occur in the artifact and both tokens are
bound — but the occurrences overlap in the text (the two underscores
closing the first placeholder open the second), so replacing the first
token consumes part of the second token's occurrence: afterwards the
second placeholder is neither present nor resolved to its value y, and
its remnant text is left corrupted. -/
theorem C9_counterexample :
    occursB (placeholder tokRedirect) sC9 = true ∧
    occursB (placeholder tokDomain) sC9 = true ∧
    occursB (placeholder tokRedirect) (placeholder tokDomain) = false ∧
    occursB (placeholder tokDomain) (placeholder tokRedirect) = false ∧
    (runScript true envC9 filesC9).state.files =
      [⟨str "o.js", str "xNEXT_PUBLIC_CW_DOMAIN__"⟩] ∧
    occursB (str "y") (str "xNEXT_PUBLIC_CW_DOMAIN__") = false ∧
    occursB (placeholder tokDomain) (str "xNEXT_PUBLIC_CW_DOMAIN__") =
      false := by
  decide

/-- C9 (amended): for two declared tokens (first processed before the
second) with non-empty, valid, metacharacter-free values, if the two
placeholders occur at disjoint single sites in the artifact — no match
of either placeholder anywhere but its own site, before or after the
other is substituted — then each token is resolved exactly as if the
other did not exist: the run binding only the first, the run binding
only the second, and the run binding both each replace exactly their
own site, and the combined run equals both independent resolutions. -/
theorem C9_amended (tA tB vA vB u0 u1 u2 nm : List Char)
    (hs : [tA, tB].Sublist tokenNames)
    (hneA : vA ≠ []) (hneB : vB ≠ [])
    (hokA : sedOk vA = true) (hokB : sedOk vB = true)
    (hclA1 : '&' ∉ vA) (hclA2 : '\\' ∉ vA)
    (hclB1 : '&' ∉ vB) (hclB2 : '\\' ∉ vB)
    (hnm : allowName nm = true)
    (hnsAB : occursB (placeholder tA) (placeholder tB) = false)
    (hnsBA : occursB (placeholder tB) (placeholder tA) = false)
    (hA : ∀ k,
      k < (cat5 u0 (placeholder tA) u1 (placeholder tB) u2).length →
      k ≠ u0.length →
      pfx (placeholder tA)
        ((cat5 u0 (placeholder tA) u1 (placeholder tB) u2).drop k) = false)
    (hB0 : ∀ k,
      k < (cat5 u0 (placeholder tA) u1 (placeholder tB) u2).length →
      k ≠ u0.length + (placeholder tA).length + u1.length →
      pfx (placeholder tB)
        ((cat5 u0 (placeholder tA) u1 (placeholder tB) u2).drop k) = false)
    (hB1 : ∀ k,
      k < (cat5 u0 vA u1 (placeholder tB) u2).length →
      k ≠ u0.length + vA.length + u1.length →
      pfx (placeholder tB)
        ((cat5 u0 vA u1 (placeholder tB) u2).drop k) = false) :
    (runScript true (oneEnv tA vA)
        [⟨nm, cat5 u0 (placeholder tA) u1 (placeholder tB) u2⟩]).state.files =
      [⟨nm, cat5 u0 vA u1 (placeholder tB) u2⟩] ∧
    (runScript true (oneEnv tB vB)
        [⟨nm, cat5 u0 (placeholder tA) u1 (placeholder tB) u2⟩]).state.files =
      [⟨nm, cat5 u0 (placeholder tA) u1 vB u2⟩] ∧
    (runScript true (pairEnv tA tB vA vB)
        [⟨nm, cat5 u0 (placeholder tA) u1 (placeholder tB) u2⟩]).state.files =
      [⟨nm, cat5 u0 vA u1 vB u2⟩] := by
  have htA : tA ∈ tokenNames := hs.subset (by simp)
  have htB : tB ∈ tokenNames := hs.subset (by simp)
  have hpA : placeholder tA ≠ [] := placeholder_ne_nil tA
  have hpB : placeholder tB ≠ [] := placeholder_ne_nil tB
  have step1 : replaceAll (placeholder tA) vA
      (cat5 u0 (placeholder tA) u1 (placeholder tB) u2) =
      cat5 u0 vA u1 (placeholder tB) u2 :=
    replaceAll_single_site (placeholder tA) vA hpA u0
      (u1 ++ (placeholder tB ++ u2)) hA
  have hshape : cat5 u0 (placeholder tA) u1 (placeholder tB) u2 =
      (u0 ++ (placeholder tA ++ u1)) ++ (placeholder tB ++ u2) := by
    simp [cat5, List.append_assoc]
  have hlenx : (u0 ++ (placeholder tA ++ u1)).length =
      u0.length + (placeholder tA).length + u1.length := by
    simp only [List.length_append]
    omega
  have step2 : replaceAll (placeholder tB) vB
      (cat5 u0 (placeholder tA) u1 (placeholder tB) u2) =
      cat5 u0 (placeholder tA) u1 vB u2 := by
    rw [hshape]
    have hres := replaceAll_single_site (placeholder tB) vB hpB
      (u0 ++ (placeholder tA ++ u1)) u2 ?_
    · rw [hres]
      simp [cat5, List.append_assoc]
    · intro k h1 h2
      rw [hlenx] at h2
      have h1c : k <
          (cat5 u0 (placeholder tA) u1 (placeholder tB) u2).length := by
        rw [hshape]
        exact h1
      have := hB0 k h1c h2
      rw [hshape] at this
      exact this
  have hshape1 : cat5 u0 vA u1 (placeholder tB) u2 =
      (u0 ++ (vA ++ u1)) ++ (placeholder tB ++ u2) := by
    simp [cat5, List.append_assoc]
  have hlenx1 : (u0 ++ (vA ++ u1)).length =
      u0.length + vA.length + u1.length := by
    simp only [List.length_append]
    omega
  have step3 : replaceAll (placeholder tB) vB
      (cat5 u0 vA u1 (placeholder tB) u2) =
      cat5 u0 vA u1 vB u2 := by
    rw [hshape1]
    have hres := replaceAll_single_site (placeholder tB) vB hpB
      (u0 ++ (vA ++ u1)) u2 ?_
    · rw [hres]
      simp [cat5, List.append_assoc]
    · intro k h1 h2
      rw [hlenx1] at h2
      have h1c : k < (cat5 u0 vA u1 (placeholder tB) u2).length := by
        rw [hshape1]
        exact h1
      have := hB1 k h1c h2
      rw [hshape1] at this
      exact this
  refine ⟨?_, ?_, ?_⟩
  · rw [run_single_file (oneEnv tA vA) nm _ hnm]
    rw [(appliedSubs_oneEnv tA vA htA hneA hokA).1]
    rw [applySubs_single, sedSubst_clean _ _ _ hclA1 hclA2, step1]
  · rw [run_single_file (oneEnv tB vB) nm _ hnm]
    rw [(appliedSubs_oneEnv tB vB htB hneB hokB).1]
    rw [applySubs_single, sedSubst_clean _ _ _ hclB1 hclB2, step2]
  · rw [run_single_file (pairEnv tA tB vA vB) nm _ hnm]
    rw [(appliedSubs_pairEnv tA tB vA vB hs hneA hneB hokA hokB).1]
    rw [applySubs_pair, sedSubst_clean _ _ _ hclA1 hclA2,
      sedSubst_clean _ _ _ hclB1 hclB2, step1, step3]

/-- C9 (witness): a concrete artifact with the two placeholders at
disjoint sites, resolved independently and jointly. -/
theorem C9_amended_witness :
    (runScript true (oneEnv tokRedirect (str "x1"))
        [⟨str "w9.js", cat5 (str "a.") (placeholder tokRedirect)
          (str ".b.") (placeholder tokDomain) (str ".c")⟩]).state.files =
      [⟨str "w9.js", cat5 (str "a.") (str "x1") (str ".b.")
        (placeholder tokDomain) (str ".c")⟩] ∧
    (runScript true (oneEnv tokDomain (str "y2"))
        [⟨str "w9.js", cat5 (str "a.") (placeholder tokRedirect)
          (str ".b.") (placeholder tokDomain) (str ".c")⟩]).state.files =
      [⟨str "w9.js", cat5 (str "a.") (placeholder tokRedirect)
        (str ".b.") (str "y2") (str ".c")⟩] ∧
    (runScript true (pairEnv tokRedirect tokDomain (str "x1") (str "y2"))
        [⟨str "w9.js", cat5 (str "a.") (placeholder tokRedirect)
          (str ".b.") (placeholder tokDomain) (str ".c")⟩]).state.files =
      [⟨str "w9.js", cat5 (str "a.") (str "x1") (str ".b.") (str "y2")
        (str ".c")⟩] :=
  C9_amended tokRedirect tokDomain (str "x1") (str "y2") (str "a.")
    (str ".b.") (str ".c") (str "w9.js") (by decide) (by decide)
    (by decide) (by decide) (by decide) (by decide) (by decide)
    (by decide) (by decide) (by decide) (by decide) (by decide)
    (by decide) (by decide) (by decide)

/-- C10: substitution is sequential over the live artifact contents,
not simultaneous: with the first token's value embedding the second
token's placeholder and the second token bound, after the run the text
injected for the first token has the embedded placeholder further
replaced by the second token's value — here for any two declared tokens
in declaration order, any artifact with a single site for the first
token, and any embedding value, provided neither placeholder has stray
matches. -/
theorem C10_sequential (tA tB vB w0 w1 u0 u1 nm : List Char)
    (hs : [tA, tB].Sublist tokenNames)
    (hneB : vB ≠ [])
    (hokA : sedOk (cat3 w0 (placeholder tB) w1) = true)
    (hokB : sedOk vB = true)
    (hclA1 : '&' ∉ cat3 w0 (placeholder tB) w1)
    (hclA2 : '\\' ∉ cat3 w0 (placeholder tB) w1)
    (hclB1 : '&' ∉ vB) (hclB2 : '\\' ∉ vB)
    (hnm : allowName nm = true)
    (hA : ∀ k, k < (cat3 u0 (placeholder tA) u1).length →
      k ≠ u0.length →
      pfx (placeholder tA) ((cat3 u0 (placeholder tA) u1).drop k) = false)
    (hB : ∀ k, k < (cat5 u0 w0 (placeholder tB) w1 u1).length →
      k ≠ u0.length + w0.length →
      pfx (placeholder tB)
        ((cat5 u0 w0 (placeholder tB) w1 u1).drop k) = false) :
    (runScript true (pairEnv tA tB (cat3 w0 (placeholder tB) w1) vB)
        [⟨nm, cat3 u0 (placeholder tA) u1⟩]).state.files =
      [⟨nm, cat5 u0 w0 vB w1 u1⟩] ∧
    (runScript true (pairEnv tA tB (cat3 w0 (placeholder tB) w1) vB)
        [⟨nm, cat3 u0 (placeholder tA) u1⟩]).execed = true := by
  have hpA : placeholder tA ≠ [] := placeholder_ne_nil tA
  have hpB : placeholder tB ≠ [] := placeholder_ne_nil tB
  have hneA : cat3 w0 (placeholder tB) w1 ≠ [] := by
    intro h
    simp only [cat3, List.append_eq_nil] at h
    exact hpB h.2.1
  have stepA : replaceAll (placeholder tA) (cat3 w0 (placeholder tB) w1)
      (cat3 u0 (placeholder tA) u1) =
      u0 ++ (cat3 w0 (placeholder tB) w1 ++ u1) :=
    replaceAll_single_site (placeholder tA)
      (cat3 w0 (placeholder tB) w1) hpA u0 u1 hA
  have hsh1 : u0 ++ (cat3 w0 (placeholder tB) w1 ++ u1) =
      cat5 u0 w0 (placeholder tB) w1 u1 := by
    simp [cat3, cat5, List.append_assoc]
  have hsh2 : cat5 u0 w0 (placeholder tB) w1 u1 =
      (u0 ++ w0) ++ (placeholder tB ++ (w1 ++ u1)) := by
    simp [cat5, List.append_assoc]
  have hlenx : (u0 ++ w0).length = u0.length + w0.length := by
    simp only [List.length_append]
  have stepB : replaceAll (placeholder tB) vB
      (cat5 u0 w0 (placeholder tB) w1 u1) = cat5 u0 w0 vB w1 u1 := by
    rw [hsh2]
    have hres := replaceAll_single_site (placeholder tB) vB hpB
      (u0 ++ w0) (w1 ++ u1) ?_
    · rw [hres]
      simp [cat5, List.append_assoc]
    · intro k h1 h2
      rw [hlenx] at h2
      have h1c : k < (cat5 u0 w0 (placeholder tB) w1 u1).length := by
        rw [hsh2]
        exact h1
      have := hB k h1c h2
      rw [hsh2] at this
      exact this
  constructor
  · rw [run_single_file _ nm _ hnm]
    rw [(appliedSubs_pairEnv tA tB (cat3 w0 (placeholder tB) w1) vB hs
      hneA hneB hokA hokB).1]
    rw [applySubs_pair, sedSubst_clean _ _ _ hclA1 hclA2,
      sedSubst_clean _ _ _ hclB1 hclB2, stepA, hsh1, stepB]
  · rw [runScript_char]
    exact (appliedSubs_pairEnv tA tB (cat3 w0 (placeholder tB) w1) vB hs
      hneA hneB hokA hokB).2

/-- C10 (witness): a concrete chained substitution — the first token's
value embeds the second token's placeholder, which the run then
resolves to the second token's value inside the injected text. -/
theorem C10_sequential_witness :
    (runScript true (pairEnv tokRedirect tokDomain
        (cat3 (str "p-") (placeholder tokDomain) (str "-s")) (str "V"))
        [⟨str "w10.js", cat3 (str "h.") (placeholder tokRedirect)
          (str ".t")⟩]).state.files =
      [⟨str "w10.js", cat5 (str "h.") (str "p-") (str "V") (str "-s")
        (str ".t")⟩] ∧
    (runScript true (pairEnv tokRedirect tokDomain
        (cat3 (str "p-") (placeholder tokDomain) (str "-s")) (str "V"))
        [⟨str "w10.js", cat3 (str "h.") (placeholder tokRedirect)
          (str ".t")⟩]).execed = true :=
  C10_sequential tokRedirect tokDomain (str "V") (str "p-") (str "-s")
    (str "h.") (str ".t") (str "w10.js") (by decide) (by decide)
    (by decide) (by decide) (by decide) (by decide) (by decide)
    (by decide) (by decide) (by decide) (by decide)
